import Mathlib

/-!
# Verification of `pyomo/contrib/preprocessing/plugins/induced_linearity.py`

Shallow embedding of the induced-linearity transformation module and proofs
about it.  Variables and constraints are modelled as records carrying exactly
the data the module reads from them; the external standard-representation
extractor (`generate_standard_repn`) is modelled by the `degree`,
`linear_vars`, `linear_coefs`, `const`, `quadratic_vars` and `nonlinear`
fields of a constraint, which it computes deterministically from the
constraint body without mutating it.  The identity-keyed containers
`ComponentMap` and `ComponentSet` (repository code not present under the
sources being verified) are modelled, following the specification, as maps
keyed by the component itself with object identity reflected by structural
identity of the records; shared ownership of mutable constraint sets is made
explicit through a store of sets addressed by integer set identifiers.
-/

/-- A model variable: identity, domain kind, and bounds, as read by the
module (`v.is_continuous()`, declared bounds of discrete variables). -/
structure Var where
  idx : Nat
  continuous : Bool
  lb : Option Int
  ub : Option Int
deriving DecidableEq

/-- A model constraint: identity, activity flag, lower/upper bounds
(`constr.lower`, `constr.upper`), and the data the external
standard-representation extractor reports for its body:
`body.polynomial_degree()` (`none` models a non-polynomial body),
`repn.linear_vars` with `repn.linear_coefs` and `repn.constant`,
`repn.quadratic_vars`, and whether `repn.nonlinear_expr` is not `None`. -/
structure Constr where
  idx : Nat
  active : Bool
  lower : Option ℚ
  upper : Option ℚ
  degree : Option Nat
  linear_vars : List Var
  linear_coefs : List ℚ
  const : ℚ
  quadratic_vars : List (Var × Var)
  nonlinear : Bool
deriving DecidableEq

/-- A model: its variables and its constraints, in declaration order. -/
structure Model where
  vars : List Var
  constraints : List Constr
deriving DecidableEq

/-- Lookup in an identity-keyed association map (`ComponentMap.get`). -/
def alookup {α β : Type} [DecidableEq α] : List (α × β) → α → Option β
  | [], _ => none
  | (k, v) :: rest, a => if k = a then some v else alookup rest a

/-- Write-through on an identity-keyed association map
(`ComponentMap.__setitem__`): replaces an existing binding, else appends. -/
def aset {α β : Type} [DecidableEq α] : List (α × β) → α → β → List (α × β)
  | [], a, b => [(a, b)]
  | (k, v) :: rest, a, b =>
      if k = a then (a, b) :: rest else (k, v) :: aset rest a b

theorem alookup_aset_eq {α β : Type} [DecidableEq α]
    (l : List (α × β)) (a : α) (b : β) : alookup (aset l a b) a = some b := by
  induction l with
  | nil => simp [aset, alookup]
  | cons hd tl ih =>
    by_cases h : hd.1 = a
    · simp [aset, h, alookup]
    · simp [aset, h, alookup, ih]

theorem alookup_aset_ne {α β : Type} [DecidableEq α]
    (l : List (α × β)) (a x : α) (b : β) (h : x ≠ a) :
    alookup (aset l a b) x = alookup l x := by
  induction l with
  | nil => simp [aset, alookup, Ne.symm h]
  | cons hd tl ih =>
    by_cases hk : hd.1 = a
    · have hx : hd.1 ≠ x := by rw [hk]; exact Ne.symm h
      simp [aset, hk, alookup, Ne.symm h, hx]
    · simp [aset, hk, alookup, ih]

/-! ## EffectiveDiscreteDetector (`detect_effectively_discrete_vars`) -/

/-- The function `math.fabs`, the absolute value used by the detector. -/
def fabs (q : ℚ) : ℚ := if q < 0 then -q else q

theorem fabs_eq_abs (q : ℚ) : fabs q = |q| := by
  unfold fabs
  by_cases h : q < 0
  · rw [if_pos h, abs_of_neg h]
  · rw [if_neg h, abs_of_nonneg (le_of_not_lt h)]

/-- The qualification test of `detect_effectively_discrete_vars`
(lines 190-213) for one already-active constraint: both bounds present,
`fabs(value(lower) - value(upper)) <= tolerance`, polynomial degree in
`(1, 0)`, at least two linear terms; returns the unique continuous variable
among the linear-term variables when there is exactly one, else `none`. -/
def quals (tol : ℚ) (c : Constr) : Option Var :=
  match c.lower, c.upper with
  | some lo, some hi =>
    if fabs (lo - hi) > tol then none
    else if c.degree = some 1 ∨ c.degree = some 0 then
      if c.linear_vars.length < 2 then none
      else
        match c.linear_vars.filter (fun u => u.continuous) with
        | [v] => some v
        | _ => none
    else none
  | _, _ => none

/-- One loop iteration of `detect_effectively_discrete_vars`: when the
constraint qualifies, append it to the (possibly empty) inducing list of its
unique continuous variable. -/
def detectStep (tol : ℚ) (acc : List (Var × List Constr)) (c : Constr) :
    List (Var × List Constr) :=
  match quals tol c with
  | some v => aset acc v ((alookup acc v).getD [] ++ [c])
  | none => acc

/-- Embeds `detect_effectively_discrete_vars(block, equality_tolerance)`
(lines 181-217): iterate the block's active constraints in order and build
the map from effectively discrete variable to inducing constraints. -/
def detect_effectively_discrete_vars (block : Model) (tol : ℚ) :
    List (Var × List Constr) :=
  (block.constraints.filter (fun c => c.active)).foldl (detectStep tol) []

/-- The detector with the model threaded through, reflecting that its body
performs no write to the model (the standard-representation extractor is
documented not to mutate the expression). -/
def detect_effectively_discrete_vars_run (block : Model) (tol : ℚ) :
    List (Var × List Constr) × Model :=
  (detect_effectively_discrete_vars block tol, block)

theorem detect_foldl_lookup (tol : ℚ) (v : Var) :
    ∀ (cs : List Constr) (acc : List (Var × List Constr)),
    alookup (cs.foldl (detectStep tol) acc) v =
      (let extra := cs.filter (fun c => decide (quals tol c = some v))
       match alookup acc v with
       | some l => some (l ++ extra)
       | none => if extra = [] then none else some extra) := by
  intro cs
  induction cs with
  | nil =>
    intro acc
    simp only [List.foldl_nil, List.filter_nil]
    match h : alookup acc v with
    | some l => simp
    | none => simp
  | cons c cs ih =>
    intro acc
    simp only [List.foldl_cons, List.filter_cons]
    by_cases hq : quals tol c = some v
    · have hstep : detectStep tol acc c =
          aset acc v ((alookup acc v).getD [] ++ [c]) := by
        simp [detectStep, hq]
      rw [hstep, ih]
      simp only [hq, decide_eq_true_eq, if_pos trivial]
      rw [alookup_aset_eq]
      match h : alookup acc v with
      | some l => simp [h]
      | none => simp [h]
    · have hd : decide (quals tol c = some v) = false := by
        simp [hq]
      rw [hd]
      simp only [if_neg Bool.false_ne_true]
      match hqq : quals tol c with
      | none =>
        have hstep : detectStep tol acc c = acc := by simp [detectStep, hqq]
        rw [hstep, ih]
      | some u =>
        have huv : u ≠ v := by
          intro h; exact hq (hqq ▸ (h ▸ rfl))
        have hstep : detectStep tol acc c =
            aset acc u ((alookup acc u).getD [] ++ [c]) := by
          simp [detectStep, hqq]
        rw [hstep, ih]
        rw [alookup_aset_ne _ _ _ _ (Ne.symm huv)]

theorem quals_eq_some_iff (tol : ℚ) (c : Constr) (v : Var) :
    quals tol c = some v ↔
      (∃ lo hi, c.lower = some lo ∧ c.upper = some hi ∧ |lo - hi| ≤ tol) ∧
      (c.degree = some 0 ∨ c.degree = some 1) ∧
      2 ≤ c.linear_vars.length ∧
      c.linear_vars.filter (fun u => u.continuous) = [v] := by
  rcases hlo : c.lower with _ | lo <;> rcases hhi : c.upper with _ | hi <;>
    simp only [quals, hlo, hhi]
  · simp
  · simp
  · simp
  by_cases h1 : fabs (lo - hi) > tol
  · rw [if_pos h1]
    rw [fabs_eq_abs] at h1
    simp only [hlo, hhi, Option.some.injEq]
    constructor
    · intro h; exact absurd h (by simp)
    · rintro ⟨⟨lo2, hi2, he1, he2, hle⟩, -⟩
      rw [← he1, ← he2] at hle
      exact absurd hle (not_le.mpr h1)
  rw [if_neg h1]
  rw [fabs_eq_abs] at h1
  have hle : |lo - hi| ≤ tol := le_of_not_lt h1
  by_cases h2 : c.degree = some 1 ∨ c.degree = some 0
  · rw [if_pos h2]
    by_cases h3 : c.linear_vars.length < 2
    · rw [if_pos h3]
      constructor
      · intro h; exact absurd h (by simp)
      · rintro ⟨-, -, hlen, -⟩
        exact absurd hlen (not_le.mpr h3)
    · rw [if_neg h3]
      have hlen : 2 ≤ c.linear_vars.length := le_of_not_lt h3
      rcases hf : c.linear_vars.filter (fun u => u.continuous) with
          _ | ⟨u, _ | ⟨u2, rest⟩⟩
      · simp [hf]
      · simp [hf, hlo, hhi, hle, h2.symm, hlen]
      · simp [hf]
  · rw [if_neg h2]
    constructor
    · intro h; exact absurd h (by simp)
    · rintro ⟨-, hdeg, -⟩
      exact absurd hdeg.symm h2

/-- C4: for every scope and tolerance, `detect_effectively_discrete_vars`
maps a continuous variable `v` to an inducing-constraint list containing a
constraint `c` iff `c` is active, is an equality within the tolerance
(`|upper - lower| <= tolerance`, both bounds present), has polynomial degree
at most 1, has at least two linear terms, and `v` is the unique continuous
variable among its linear-term variables; and the list is exactly the
subsequence of the model's active constraints qualifying for `v`, in order,
accumulated with no deduplication. -/
theorem detect_inducing_membership (m : Model) (tol : ℚ) (v : Var)
    (l : List Constr)
    (h : alookup (detect_effectively_discrete_vars m tol) v = some l) :
    (∀ c : Constr, c ∈ l ↔
      c ∈ m.constraints ∧ c.active = true ∧
      (∃ lo hi, c.lower = some lo ∧ c.upper = some hi ∧ |lo - hi| ≤ tol) ∧
      (c.degree = some 0 ∨ c.degree = some 1) ∧
      2 ≤ c.linear_vars.length ∧
      c.linear_vars.filter (fun u => u.continuous) = [v]) ∧
    l = (m.constraints.filter (fun c => c.active)).filter
          (fun c => decide (quals tol c = some v)) := by
  have hmain : alookup (detect_effectively_discrete_vars m tol) v =
      (if ((m.constraints.filter (fun c => c.active)).filter
            (fun c => decide (quals tol c = some v))) = [] then none
       else some ((m.constraints.filter (fun c => c.active)).filter
            (fun c => decide (quals tol c = some v)))) := by
    rw [detect_effectively_discrete_vars]
    rw [detect_foldl_lookup tol v (m.constraints.filter (fun c => c.active)) []]
    simp only [alookup]
  rw [hmain] at h
  have hl : l = (m.constraints.filter (fun c => c.active)).filter
      (fun c => decide (quals tol c = some v)) := by
    by_cases he : (m.constraints.filter (fun c => c.active)).filter
        (fun c => decide (quals tol c = some v)) = []
    · rw [if_pos he] at h
      exact absurd h (by simp)
    · rw [if_neg he] at h
      exact (Option.some.inj h).symm
  refine ⟨?_, hl⟩
  intro c
  rw [hl]
  simp only [List.mem_filter, decide_eq_true_eq]
  rw [quals_eq_some_iff]
  tauto

/-- Binary discrete variable used in the detector witness model. -/
def dW1 : Var := ⟨1, false, some 0, some 1⟩

/-- Binary discrete variable used in the detector witness model. -/
def dW2 : Var := ⟨2, false, some 0, some 1⟩

/-- Continuous variable used in the detector witness model. -/
def vW : Var := ⟨3, true, none, none⟩

/-- The equality constraint `d1 + d2 - v = 0` of the detector witness. -/
def cW1 : Constr :=
  ⟨1, true, some 0, some 0, some 1, [dW1, dW2, vW], [1, 1, -1], 0, [], false⟩

/-- Witness model for the detector claims. -/
def mW : Model := ⟨[dW1, dW2, vW], [cW1]⟩

theorem detect_inducing_membership_witness :
    alookup (detect_effectively_discrete_vars mW 0) vW = some [cW1] ∧
    [cW1] = (mW.constraints.filter (fun c => c.active)).filter
        (fun c => decide (quals 0 c = some vW)) :=
  ⟨by simp [detect_effectively_discrete_vars, detectStep, quals, fabs, alookup,
      aset, mW, cW1, dW1, dW2, vW],
   (detect_inducing_membership mW 0 vW [cW1]
     (by simp [detect_effectively_discrete_vars, detectStep, quals, fabs,
         alookup, aset, mW, cW1, dW1, dW2, vW])).2⟩

/-- C9: running the detector twice on the same unmodified model with the
same tolerance yields identical records, and the detector leaves the model
unmodified: its body performs no write to the model or its constraints and
uses no state surviving an invocation. -/
theorem detect_idempotent (m : Model) (tol : ℚ) :
    (detect_effectively_discrete_vars_run m tol).2 = m ∧
    (detect_effectively_discrete_vars_run
        ((detect_effectively_discrete_vars_run m tol).2) tol).1 =
      (detect_effectively_discrete_vars_run m tol).1 :=
  ⟨rfl, rfl⟩

/-! ## BilinearMapBuilder (`_bilinear_expressions`)

The bilinear map stores, for each variable, an inner map from partner
variable to a `ComponentSet` of constraints.  Python's `ComponentSet`
objects are mutable and shared between the two orientations of a pair, so
they are modelled through a store of sets addressed by integer set
identifiers: holding the same identifier is holding the identical object. -/

/-- Embeds `ComponentSet.add`: identity-keyed insertion, idempotent on an element
already present. -/
def setAdd (s : List Constr) (c : Constr) : List Constr :=
  if c ∈ s then s else s ++ [c]

theorem mem_setAdd_self (s : List Constr) (c : Constr) : c ∈ setAdd s c := by
  unfold setAdd
  by_cases h : c ∈ s
  · rwa [if_pos h]
  · rw [if_neg h]; simp

theorem mem_setAdd_of_mem (s : List Constr) (c c2 : Constr) (h : c2 ∈ s) :
    c2 ∈ setAdd s c := by
  unfold setAdd
  by_cases hc : c ∈ s
  · rwa [if_pos hc]
  · rw [if_neg hc]; exact List.mem_append_left _ h

/-- Read a set out of the store; out-of-range reads the empty set (never
reached under the boundedness invariant). -/
def storeGet : List (List Constr) → Nat → List Constr
  | [], _ => []
  | s :: _, 0 => s
  | _ :: rest, Nat.succ n => storeGet rest n

/-- Overwrite one set in the store, the explicit form of mutating a shared
`ComponentSet` object in place. -/
def storeSet : List (List Constr) → Nat → List Constr → List (List Constr)
  | [], _, _ => []
  | _ :: rest, 0, s => s :: rest
  | x :: rest, Nat.succ n, s => x :: storeSet rest n s

theorem length_storeSet (l : List (List Constr)) (i : Nat) (s : List Constr) :
    (storeSet l i s).length = l.length := by
  induction l generalizing i with
  | nil => rfl
  | cons x rest ih =>
    cases i with
    | zero => rfl
    | succ n => simp [storeSet, ih]

theorem storeGet_storeSet_eq (l : List (List Constr)) (i : Nat)
    (s : List Constr) (h : i < l.length) :
    storeGet (storeSet l i s) i = s := by
  induction l generalizing i with
  | nil => exact absurd h (by simp)
  | cons x rest ih =>
    cases i with
    | zero => rfl
    | succ n => exact ih n (Nat.lt_of_succ_lt_succ h)

theorem storeGet_storeSet_ne (l : List (List Constr)) (i j : Nat)
    (s : List Constr) (h : j ≠ i) :
    storeGet (storeSet l i s) j = storeGet l j := by
  induction l generalizing i j with
  | nil => rfl
  | cons x rest ih =>
    cases i with
    | zero =>
      cases j with
      | zero => exact absurd rfl h
      | succ n => rfl
    | succ n =>
      cases j with
      | zero => rfl
      | succ k =>
        simp only [storeSet, storeGet]
        exact ih n k (fun hh => h (by rw [hh]))

theorem storeGet_append_lt (l t : List (List Constr)) (i : Nat)
    (h : i < l.length) : storeGet (l ++ t) i = storeGet l i := by
  induction l generalizing i with
  | nil => exact absurd h (by simp)
  | cons x rest ih =>
    cases i with
    | zero => rfl
    | succ n => exact ih n (Nat.lt_of_succ_lt_succ h)

theorem storeGet_append_self (l : List (List Constr)) (s : List Constr) :
    storeGet (l ++ [s]) l.length = s := by
  induction l with
  | nil => rfl
  | cons x rest ih => exact ih

/-- The bilinear map under construction: the outer `ComponentMap` from
variable to inner `ComponentMap` from partner variable to set identifier,
together with the store of shared constraint sets. -/
structure BMap where
  store : List (List Constr)
  map : List (Var × List (Var × Nat))
deriving DecidableEq

/-- Lookup of `bilinear_map[v1][v2]` as the identifier of the shared constraint set,
when present. -/
def BMap.find (st : BMap) (a b : Var) : Option Nat :=
  (alookup st.map a).bind (fun inner => alookup inner b)

/-- Line 173, `bilinear_map[v1] = v1_pairs`: the outer map after ensuring an
entry for `v1` (a no-op when `v1` is already bound, since `v1_pairs` on line
166 was read from the map). -/
def bm1 (st : BMap) (v1 : Var) : List (Var × List (Var × Nat)) :=
  aset st.map v1 ((alookup st.map v1).getD [])

/-- Line 174, `bilinear_map[v2] = bilinear_map.get(v2, ComponentMap())`. -/
def bm2 (st : BMap) (v1 v2 : Var) : List (Var × List (Var × Nat)) :=
  aset (bm1 st v1) v2 ((alookup (bm1 st v1) v2).getD [])

/-- Line 176, `bilinear_map[v1][v2] = constraints_with_bilinear_pair`:
in-place update of the inner map object bound to `v1`, writing the
identifier `L` of the freshly created shared set. -/
def bm3 (st : BMap) (v1 v2 : Var) (L : Nat) :
    List (Var × List (Var × Nat)) :=
  aset (bm2 st v1 v2) v1
    (aset ((alookup (bm2 st v1 v2) v1).getD []) v2 L)

/-- Line 177, `bilinear_map[v2][v1] = constraints_with_bilinear_pair`:
the symmetric in-place update, reading the inner map object bound to `v2`
after the previous write (so that aliasing when `v1 = v2` is respected). -/
def bm4 (st : BMap) (v1 v2 : Var) (L : Nat) :
    List (Var × List (Var × Nat)) :=
  aset (bm3 st v1 v2 L) v2
    (aset ((alookup (bm3 st v1 v2 L) v2).getD []) v1 L)

/-- The `else` branch of the quadratic-pair loop (lines 171-177): allocate
the fresh shared set `ComponentSet([constr])` and write its identifier under
both orientations of the pair. -/
def bilinearFresh (c : Constr) (st : BMap) (v1 v2 : Var) : BMap :=
  { store := st.store ++ [[c]], map := bm4 st v1 v2 st.store.length }

/-- One iteration of the quadratic-pair loop of `_bilinear_expressions`
(lines 164-177), for the current constraint `c` and pair `(v1, v2)`:
either add `c` to the set already shared by the pair
(`v1_pairs[v2].add(constr)`, line 170 — a mutation of the shared object,
hence of the store), or run the fresh-pair branch. -/
def bilinearStep (c : Constr) (st : BMap) (p : Var × Var) : BMap :=
  match alookup ((alookup st.map p.1).getD []) p.2 with
  | some sid =>
      { st with
        store := storeSet st.store sid (setAdd (storeGet st.store sid) c) }
  | none => bilinearFresh c st p.1 p.2

/-- The per-constraint body of `_bilinear_expressions`: skip constraints of
polynomial degree 1 or 0 (a non-polynomial body, degree `None`, is not
skipped), then run the quadratic-pair loop. -/
def bilinearConstrStep (st : BMap) (c : Constr) : BMap :=
  if c.degree = some 1 ∨ c.degree = some 0 then st
  else c.quadratic_vars.foldl (bilinearStep c) st

/-- Embeds `_bilinear_expressions(model)` (lines 149-178): fold the
per-constraint step over the model's active constraints. -/
def bilinear_expressions (model : Model) : BMap :=
  (model.constraints.filter (fun c => c.active)).foldl bilinearConstrStep
    { store := [], map := [] }

theorem find_eq_getD (st : BMap) (a b : Var) :
    st.find a b = alookup ((alookup st.map a).getD []) b := by
  unfold BMap.find
  match h : alookup st.map a with
  | none => simp [h, alookup]
  | some inner => simp [h]

theorem alookup_bm1_self (st : BMap) (v1 : Var) :
    alookup (bm1 st v1) v1 = some ((alookup st.map v1).getD []) :=
  alookup_aset_eq _ _ _

theorem alookup_bm1_ne (st : BMap) (v1 z : Var) (h : z ≠ v1) :
    alookup (bm1 st v1) z = alookup st.map z :=
  alookup_aset_ne _ _ _ _ h

theorem alookup_bm2_self (st : BMap) (v1 v2 : Var) :
    alookup (bm2 st v1 v2) v2 = some ((alookup (bm1 st v1) v2).getD []) :=
  alookup_aset_eq _ _ _

theorem alookup_bm2_v1 (st : BMap) (v1 v2 : Var) :
    alookup (bm2 st v1 v2) v1 = some ((alookup st.map v1).getD []) := by
  by_cases h : v1 = v2
  · subst h
    rw [bm2, alookup_aset_eq, alookup_bm1_self, Option.getD_some]
  · rw [bm2, alookup_aset_ne _ _ _ _ h, alookup_bm1_self]

theorem alookup_bm2_other (st : BMap) (v1 v2 z : Var) (h1 : z ≠ v1)
    (h2 : z ≠ v2) : alookup (bm2 st v1 v2) z = alookup st.map z := by
  rw [bm2, alookup_aset_ne _ _ _ _ h2, alookup_bm1_ne _ _ _ h1]

theorem alookup_bm3_v1 (st : BMap) (v1 v2 : Var) (L : Nat) :
    alookup (bm3 st v1 v2 L) v1 =
      some (aset ((alookup st.map v1).getD []) v2 L) := by
  rw [bm3, alookup_aset_eq, alookup_bm2_v1, Option.getD_some]

theorem alookup_bm3_ne (st : BMap) (v1 v2 : Var) (L : Nat) (z : Var)
    (h : z ≠ v1) : alookup (bm3 st v1 v2 L) z = alookup (bm2 st v1 v2) z :=
  alookup_aset_ne _ _ _ _ h

theorem alookup_bm4_self (st : BMap) (v1 v2 : Var) (L : Nat) :
    alookup (bm4 st v1 v2 L) v2 =
      some (aset ((alookup (bm3 st v1 v2 L) v2).getD []) v1 L) :=
  alookup_aset_eq _ _ _

theorem alookup_bm4_ne (st : BMap) (v1 v2 : Var) (L : Nat) (z : Var)
    (h : z ≠ v2) : alookup (bm4 st v1 v2 L) z = alookup (bm3 st v1 v2 L) z :=
  alookup_aset_ne _ _ _ _ h

theorem bm3_at_v2 (st : BMap) (v1 v2 : Var) (L : Nat) :
    (alookup (bm3 st v1 v2 L) v2).getD [] =
      if v2 = v1 then aset ((alookup st.map v1).getD []) v2 L
      else (alookup st.map v2).getD [] := by
  by_cases h : v2 = v1
  · rw [if_pos h, h, alookup_bm3_v1, Option.getD_some]
  · rw [if_neg h, alookup_bm3_ne _ _ _ _ _ h, alookup_bm2_self,
      alookup_bm1_ne _ _ _ h, Option.getD_some]

theorem bilinearFresh_find (st : BMap) (c : Constr) (v1 v2 x y : Var) :
    (bilinearFresh c st v1 v2).find x y =
      if (x = v1 ∧ y = v2) ∨ (x = v2 ∧ y = v1) then some st.store.length
      else st.find x y := by
  have hfind : (bilinearFresh c st v1 v2).find x y =
      (alookup (bm4 st v1 v2 st.store.length) x).bind
        (fun inner => alookup inner y) := rfl
  rw [hfind]
  by_cases hx2 : x = v2
  · rw [hx2, alookup_bm4_self]
    simp only [Option.bind]
    by_cases hy1 : y = v1
    · rw [hy1, alookup_aset_eq]
      simp
    · rw [alookup_aset_ne _ _ _ _ hy1, bm3_at_v2]
      by_cases hv : v2 = v1
      · rw [if_pos hv]
        have hy2 : y ≠ v2 := fun hh => hy1 (hh.trans hv)
        rw [alookup_aset_ne _ _ _ _ hy2, find_eq_getD, hv]
        simp [hy1]
      · rw [if_neg hv, find_eq_getD]
        simp [hv, hy1]
  · rw [alookup_bm4_ne _ _ _ _ _ hx2]
    by_cases hx1 : x = v1
    · rw [hx1, alookup_bm3_v1]
      simp only [Option.bind]
      have hne : v1 ≠ v2 := hx1 ▸ hx2
      by_cases hy2 : y = v2
      · rw [hy2, alookup_aset_eq]
        simp
      · rw [alookup_aset_ne _ _ _ _ hy2, find_eq_getD]
        simp [hy2, hne]
    · rw [alookup_bm3_ne _ _ _ _ _ hx1, alookup_bm2_other _ _ _ _ hx1 hx2]
      simp [hx1, hx2, BMap.find]

theorem bilinearStep_add_eq (c : Constr) (st : BMap) (v1 v2 : Var) (sid : Nat)
    (h : alookup ((alookup st.map v1).getD []) v2 = some sid) :
    bilinearStep c st (v1, v2) =
      { st with
        store := storeSet st.store sid (setAdd (storeGet st.store sid) c) } := by
  simp [bilinearStep, h]

theorem bilinearStep_new_eq (c : Constr) (st : BMap) (v1 v2 : Var)
    (h : alookup ((alookup st.map v1).getD []) v2 = none) :
    bilinearStep c st (v1, v2) = bilinearFresh c st v1 v2 := by
  simp [bilinearStep, h]

/-- The symmetry invariant of the bilinear map: both orientations of a pair
resolve to the same shared-set identifier. -/
def MapSym (st : BMap) : Prop := ∀ a b, st.find a b = st.find b a

/-- Every set identifier reachable from the map addresses a live store
cell. -/
def MapBounded (st : BMap) : Prop :=
  ∀ a b i, st.find a b = some i → i < st.store.length

/-- The invariant maintained by `_bilinear_expressions` while it builds the
map. -/
def MapInv (st : BMap) : Prop := MapSym st ∧ MapBounded st

theorem bilinearStep_inv (c : Constr) (st : BMap) (p : Var × Var)
    (h : MapInv st) : MapInv (bilinearStep c st p) := by
  obtain ⟨v1, v2⟩ := p
  rcases hbr : alookup ((alookup st.map v1).getD []) v2 with _ | sid
  · rw [bilinearStep_new_eq c st v1 v2 hbr]
    constructor
    · intro a b
      rw [bilinearFresh_find, bilinearFresh_find]
      by_cases h1 : (a = v1 ∧ b = v2) ∨ (a = v2 ∧ b = v1)
      · rw [if_pos h1, if_pos (by tauto)]
      · rw [if_neg h1, if_neg (by tauto)]
        exact h.1 a b
    · intro a b i hf
      rw [bilinearFresh_find] at hf
      have hlen : (bilinearFresh c st v1 v2).store.length =
          st.store.length + 1 := by
        simp [bilinearFresh]
      rw [hlen]
      by_cases h1 : (a = v1 ∧ b = v2) ∨ (a = v2 ∧ b = v1)
      · rw [if_pos h1] at hf
        rw [← Option.some.inj hf]
        exact Nat.lt_succ_self _
      · rw [if_neg h1] at hf
        exact Nat.lt_succ_of_lt (h.2 a b i hf)
  · rw [bilinearStep_add_eq c st v1 v2 sid hbr]
    refine ⟨fun a b => h.1 a b, fun a b i hf => ?_⟩
    rw [length_storeSet]
    exact h.2 a b i hf

theorem foldl_bilinearStep_inv (c : Constr) (l : List (Var × Var)) :
    ∀ st : BMap, MapInv st → MapInv (l.foldl (bilinearStep c) st) := by
  induction l with
  | nil => intro st h; exact h
  | cons p rest ih =>
    intro st h
    rw [List.foldl_cons]
    exact ih _ (bilinearStep_inv c st p h)

theorem bilinearConstrStep_inv (st : BMap) (c : Constr) (h : MapInv st) :
    MapInv (bilinearConstrStep st c) := by
  unfold bilinearConstrStep
  by_cases hd : c.degree = some 1 ∨ c.degree = some 0
  · rw [if_pos hd]; exact h
  · rw [if_neg hd]; exact foldl_bilinearStep_inv c c.quadratic_vars st h

theorem foldl_constrStep_inv (l : List Constr) :
    ∀ st : BMap, MapInv st → MapInv (l.foldl bilinearConstrStep st) := by
  induction l with
  | nil => intro st h; exact h
  | cons c rest ih =>
    intro st h
    rw [List.foldl_cons]
    exact ih _ (bilinearConstrStep_inv st c h)

theorem bilinear_expressions_inv (m : Model) :
    MapInv (bilinear_expressions m) := by
  unfold bilinear_expressions
  refine foldl_constrStep_inv _ _ ⟨fun a b => rfl, fun a b i hf => ?_⟩
  exact absurd hf (by simp [BMap.find, alookup])

/-- C5: for every model and every pair of variables present in the map
returned by `_bilinear_expressions`, the constraint set stored under
`v1 -> v2` and the one stored under `v2 -> v1` carry the same set
identifier: they are the identical shared object, so an insertion through
either key is visible through the other and the two can never drift
apart. -/
theorem bilinear_map_symmetric (m : Model) (v1 v2 : Var) (sid : Nat)
    (h : (bilinear_expressions m).find v1 v2 = some sid) :
    (bilinear_expressions m).find v2 v1 = some sid := by
  rw [← h]
  exact (bilinear_expressions_inv m).1 v2 v1

/-- First variable of the bilinear-map witness model. -/
def xV : Var := ⟨11, true, none, none⟩

/-- Second variable of the bilinear-map witness model. -/
def yV : Var := ⟨12, true, some 2, some 5⟩

/-- A nonlinear constraint carrying the bilinear pair `(xV, yV)`. -/
def cB : Constr :=
  ⟨21, true, none, some 10, some 2, [], [], 0, [(xV, yV)], false⟩

/-- Witness model for the bilinear-map symmetry claim. -/
def mB : Model := ⟨[xV, yV], [cB]⟩

theorem bilinear_map_symmetric_witness :
    (bilinear_expressions mB).find xV yV = some 0 ∧
    (bilinear_expressions mB).find yV xV = some 0 :=
  ⟨by decide, bilinear_map_symmetric mB xV yV 0 (by decide)⟩

/-- Variable of the squared-term model. -/
def xS : Var := ⟨13, true, none, none⟩

/-- An active nonlinear constraint whose only quadratic term is the square
`xS * xS`. -/
def cS : Constr :=
  ⟨22, true, none, some 4, some 2, [], [], 0, [(xS, xS)], false⟩

/-- Model with a single squared-term constraint. -/
def mS : Model := ⟨[xS], [cS]⟩

/-- C6 counterexample: the claim says a same-variable squared term never
produces an entry `BilinearMap[x][x]`; on the model whose only constraint
has the quadratic term `xS * xS`, `_bilinear_expressions` does produce the
entry `BilinearMap[xS][xS]`, containing that constraint. -/
theorem bilinear_map_squared_counterexample :
    (bilinear_expressions mS).find xS xS = some 0 ∧
    cS ∈ storeGet (bilinear_expressions mS).store 0 := by
  constructor
  · decide
  · decide

theorem bilinearStep_persist (c : Constr) (st : BMap) (p : Var × Var)
    (hMapInv : MapInv st) (a b : Var) (i : Nat) (c2 : Constr)
    (hf : st.find a b = some i) (hc : c2 ∈ storeGet st.store i) :
    (bilinearStep c st p).find a b = some i ∧
    c2 ∈ storeGet (bilinearStep c st p).store i := by
  obtain ⟨v1, v2⟩ := p
  rcases hbr : alookup ((alookup st.map v1).getD []) v2 with _ | sid
  · rw [bilinearStep_new_eq c st v1 v2 hbr]
    have hnone : st.find v1 v2 = none := by rw [find_eq_getD]; exact hbr
    have hcond : ¬((a = v1 ∧ b = v2) ∨ (a = v2 ∧ b = v1)) := by
      rintro (⟨ha, hb⟩ | ⟨ha, hb⟩)
      · rw [ha, hb, hnone] at hf
        exact Option.noConfusion hf
      · rw [ha, hb] at hf
        rw [hMapInv.1 v2 v1, hnone] at hf
        exact Option.noConfusion hf
    constructor
    · rw [bilinearFresh_find, if_neg hcond]
      exact hf
    · have hst : (bilinearFresh c st v1 v2).store = st.store ++ [[c]] := rfl
      rw [hst, storeGet_append_lt _ _ _ (hMapInv.2 a b i hf)]
      exact hc
  · rw [bilinearStep_add_eq c st v1 v2 sid hbr]
    have hsid : st.find v1 v2 = some sid := by rw [find_eq_getD]; exact hbr
    refine ⟨hf, ?_⟩
    by_cases hsi : i = sid
    · rw [hsi, storeGet_storeSet_eq _ _ _ (hMapInv.2 v1 v2 sid hsid)]
      exact mem_setAdd_of_mem _ _ _ (hsi ▸ hc)
    · rw [storeGet_storeSet_ne _ _ _ _ hsi]
      exact hc

theorem bilinearStep_creates (c : Constr) (st : BMap) (x y : Var)
    (hMapInv : MapInv st) :
    ∃ i, (bilinearStep c st (x, y)).find x y = some i ∧
      c ∈ storeGet (bilinearStep c st (x, y)).store i := by
  rcases hbr : alookup ((alookup st.map x).getD []) y with _ | sid
  · refine ⟨st.store.length, ?_, ?_⟩
    · rw [bilinearStep_new_eq c st x y hbr, bilinearFresh_find]
      simp
    · rw [bilinearStep_new_eq c st x y hbr]
      have hst : (bilinearFresh c st x y).store = st.store ++ [[c]] := rfl
      rw [hst, storeGet_append_self]
      simp
  · have hsid : st.find x y = some sid := by rw [find_eq_getD]; exact hbr
    refine ⟨sid, ?_, ?_⟩
    · rw [bilinearStep_add_eq c st x y sid hbr]
      exact hsid
    · rw [bilinearStep_add_eq c st x y sid hbr]
      show c ∈ storeGet
        (storeSet st.store sid (setAdd (storeGet st.store sid) c)) sid
      rw [storeGet_storeSet_eq _ _ _ (hMapInv.2 x y sid hsid)]
      exact mem_setAdd_self _ _

theorem foldl_bilinearStep_persist (c : Constr) (l : List (Var × Var)) :
    ∀ (st : BMap), MapInv st → ∀ (a b : Var) (i : Nat) (c2 : Constr),
      st.find a b = some i → c2 ∈ storeGet st.store i →
      (l.foldl (bilinearStep c) st).find a b = some i ∧
      c2 ∈ storeGet (l.foldl (bilinearStep c) st).store i := by
  induction l with
  | nil => intro st _ a b i c2 hf hc; exact ⟨hf, hc⟩
  | cons p rest ih =>
    intro st h a b i c2 hf hc
    rw [List.foldl_cons]
    have hstep := bilinearStep_persist c st p h a b i c2 hf hc
    exact ih _ (bilinearStep_inv c st p h) a b i c2 hstep.1 hstep.2

theorem foldl_bilinearStep_creates (c : Constr) (l : List (Var × Var))
    (x y : Var) (hmem : (x, y) ∈ l) :
    ∀ (st : BMap), MapInv st →
      ∃ i, (l.foldl (bilinearStep c) st).find x y = some i ∧
        c ∈ storeGet (l.foldl (bilinearStep c) st).store i := by
  induction l with
  | nil => exact absurd hmem (by simp)
  | cons p rest ih =>
    intro st h
    rw [List.foldl_cons]
    rcases List.mem_cons.mp hmem with heq | htail
    · rw [← heq]
      obtain ⟨i, hfind, hstore⟩ := bilinearStep_creates c st x y h
      exact ⟨i, foldl_bilinearStep_persist c rest _
        (bilinearStep_inv c st (x, y) h) x y i c hfind hstore⟩
    · exact ih htail _ (bilinearStep_inv c st p h)

theorem bilinearConstrStep_persist (st : BMap) (c : Constr)
    (hMapInv : MapInv st) (a b : Var) (i : Nat) (c2 : Constr)
    (hf : st.find a b = some i) (hc : c2 ∈ storeGet st.store i) :
    (bilinearConstrStep st c).find a b = some i ∧
    c2 ∈ storeGet (bilinearConstrStep st c).store i := by
  unfold bilinearConstrStep
  by_cases hd : c.degree = some 1 ∨ c.degree = some 0
  · rw [if_pos hd]; exact ⟨hf, hc⟩
  · rw [if_neg hd]
    exact foldl_bilinearStep_persist c c.quadratic_vars st hMapInv a b i c2 hf hc

theorem foldl_constrStep_persist (l : List Constr) :
    ∀ (st : BMap), MapInv st → ∀ (a b : Var) (i : Nat) (c2 : Constr),
      st.find a b = some i → c2 ∈ storeGet st.store i →
      (l.foldl bilinearConstrStep st).find a b = some i ∧
      c2 ∈ storeGet (l.foldl bilinearConstrStep st).store i := by
  induction l with
  | nil => intro st _ a b i c2 hf hc; exact ⟨hf, hc⟩
  | cons c rest ih =>
    intro st h a b i c2 hf hc
    rw [List.foldl_cons]
    have hstep := bilinearConstrStep_persist st c h a b i c2 hf hc
    exact ih _ (bilinearConstrStep_inv st c h) a b i c2 hstep.1 hstep.2

theorem foldl_constrStep_creates (l : List Constr) (c : Constr) (x : Var)
    (hmem : c ∈ l) (hdeg : ¬(c.degree = some 1 ∨ c.degree = some 0))
    (hq : (x, x) ∈ c.quadratic_vars) :
    ∀ (st : BMap), MapInv st →
      ∃ i, (l.foldl bilinearConstrStep st).find x x = some i ∧
        c ∈ storeGet (l.foldl bilinearConstrStep st).store i := by
  induction l with
  | nil => exact absurd hmem (by simp)
  | cons c0 rest ih =>
    intro st h
    rw [List.foldl_cons]
    rcases List.mem_cons.mp hmem with heq | htail
    · have hfirst : bilinearConstrStep st c0 =
          c0.quadratic_vars.foldl (bilinearStep c0) st := by
        unfold bilinearConstrStep
        rw [if_neg (heq ▸ hdeg)]
      obtain ⟨i, hfind, hstore⟩ := foldl_bilinearStep_creates c0
        c0.quadratic_vars x x (heq ▸ hq) st h
      rw [← hfirst] at hfind hstore
      have hpers := foldl_constrStep_persist rest _
        (bilinearConstrStep_inv st c0 h) x x i c0 hfind hstore
      refine ⟨i, hpers.1, ?_⟩
      rw [heq]
      exact hpers.2
    · exact ih htail _ (bilinearConstrStep_inv st c0 h)

/-- C6 amended: same-variable squared terms are not excluded: whenever
a same-variable pair `(x, x)` appears among the quadratic terms of an
active constraint not skipped as linear or trivial (degree neither 1 nor
0), the BilinearMap built by `_bilinear_expressions` contains an entry
`BilinearMap[x][x]` whose shared set contains that constraint. -/
theorem bilinear_map_squared_entry (m : Model) (c : Constr) (x : Var)
    (hmem : c ∈ m.constraints) (hact : c.active = true)
    (hdeg : ¬(c.degree = some 1 ∨ c.degree = some 0))
    (hq : (x, x) ∈ c.quadratic_vars) :
    ∃ i, (bilinear_expressions m).find x x = some i ∧
      c ∈ storeGet (bilinear_expressions m).store i := by
  unfold bilinear_expressions
  refine foldl_constrStep_creates _ c x ?_ hdeg hq _
    ⟨fun a b => rfl, fun a b i hf => absurd hf (by simp [BMap.find, alookup])⟩
  exact List.mem_filter.mpr ⟨hmem, hact⟩

theorem bilinear_map_squared_entry_witness :
    (cS ∈ mS.constraints ∧ cS.active = true ∧
      ¬(cS.degree = some 1 ∨ cS.degree = some 0) ∧
      (xS, xS) ∈ cS.quadratic_vars) ∧
    ∃ i, (bilinear_expressions mS).find xS xS = some i ∧
      cS ∈ storeGet (bilinear_expressions mS).store i :=
  ⟨by decide,
   bilinear_map_squared_entry mS cS xS (by decide) (by decide) (by decide)
     (by decide)⟩

/-! ## Reformulator stubs and pass orchestration -/

/-- Python exception kinds raised by the module's code paths. -/
inductive PyError
  | typeError
  | nameError
  | notImplementedError
deriving DecidableEq

/-- Embeds `_reformulate_case_1` (lines 141-142):
`raise NotImplementedError()`. -/
def reformulate_case_1 (v1 v2 : Var) (discrete_constr : List Constr)
    (bilinear_constr : Constr) (model : Model) : Except PyError Model :=
  Except.error PyError.notImplementedError

/-- Embeds `_reformulate_case_2` (lines 145-146): the body is `pass`; it
reads nothing, writes nothing and returns `None`, so the model is returned
unchanged. -/
def reformulate_case_2 (v1 v2 : Var) (discrete_constr : List Constr)
    (bilinear_constr : Constr) (model : Model) : Model :=
  model

/-- Embeds `_process_bilinear_constraints` (lines 119-138): the case-1
dispatch (lines 122-128) is commented out in the source, so every bilinear
constraint goes through `_reformulate_case_2` unconditionally (`if True:`
on line 136); `_reformulate_case_1` is never invoked. -/
def process_bilinear_constraints (v1 v2 : Var) (discrete_constr : List Constr)
    (bilinear_constrs : List Constr) (model : Model) : Except PyError Model :=
  Except.ok (bilinear_constrs.foldl
    (fun mm bc => reformulate_case_2 v1 v2 discrete_constr bc mm) model)

/-- The isolated case of the commented-out dispatch (lines 124-127): the
bilinear product is the constraint's only nontrivial term — one quadratic
pair, no linear terms, no nonlinear residual. -/
def isIsolatedCase (c : Constr) : Prop :=
  c.quadratic_vars.length = 1 ∧ c.linear_vars = [] ∧ c.nonlinear = false

instance (c : Constr) : Decidable (isIsolatedCase c) := by
  unfold isIsolatedCase
  infer_instance

/-- C8: a dispatched bilinear constraint in the isolated case is left
in the model untouched — `_process_bilinear_constraints` returns with the
model unchanged, so the constraint is neither dropped, deactivated nor
corrupted — and no unimplemented-case error propagates:
`_reformulate_case_1`, the only raiser of `NotImplementedError`, is never
called (its dispatch is commented out). -/
theorem isolated_case_untouched (v1 v2 : Var) (discrete_constr : List Constr)
    (bilinear_constrs : List Constr) (bc : Constr) (model : Model)
    (hiso : isIsolatedCase bc) (hmem : bc ∈ bilinear_constrs) :
    process_bilinear_constraints v1 v2 discrete_constr bilinear_constrs model
      = Except.ok model := by
  unfold process_bilinear_constraints reformulate_case_2
  have hfold : ∀ (l : List Constr) (mm : Model),
      l.foldl (fun mm2 _ => mm2) mm = mm := by
    intro l
    induction l with
    | nil => intro mm; rfl
    | cons c0 rest ih => intro mm; rw [List.foldl_cons]; exact ih mm
  rw [hfold]

/-- The isolated-case constraint of the C8 witness: `xV * yV <= 10` with no
further terms. -/
def cIso : Constr :=
  ⟨23, true, none, some 10, some 2, [], [], 0, [(xV, yV)], false⟩

/-- Witness model containing only the isolated-case constraint. -/
def mIso : Model := ⟨[xV, yV], [cIso]⟩

theorem isolated_case_untouched_witness :
    (isIsolatedCase cIso ∧ cIso ∈ [cIso]) ∧
    process_bilinear_constraints xV yV [] [cIso] mIso = Except.ok mIso :=
  ⟨by decide,
   isolated_case_untouched xV yV [] [cIso] cIso mIso (by decide) (by decide)⟩

/-- The variables appearing in a constraint body, as yielded by
`identify_variables(constr.body, include_fixed=False)`: the linear and
quadratic variables of its standard representation, each once. -/
def Constr.bodyVars (c : Constr) : List Var :=
  (c.linear_vars ++ c.quadratic_vars.foldr
    (fun p acc => p.1 :: p.2 :: acc) []).dedup

/-- Embeds `add_constraints_to_map` (lines 110-116): append each active
constraint to the entry of every variable of its body. -/
def add_constraints_to_map (var_to_constraints_map : List (Var × List Constr))
    (block : Model) : List (Var × List Constr) :=
  (block.constraints.filter (fun c => c.active)).foldl
    (fun mp c => c.bodyVars.foldl
      (fun mp2 v => aset mp2 v ((alookup mp2 v).getD [] ++ [c])) mp)
    var_to_constraints_map

/-- Embeds `determine_valid_values(block, discr_var_to_constrs_map)`
(lines 80-107) on a plain model block (`block.type() != Disjunct`): it
builds the local `var_to_constraints_map` (lines 98-103), then iterates
`discr_var_to_constrs_map` with a loop whose whole body is `pass`
(lines 106-107), computes no value set, returns `None`, and performs no
write to the model. -/
def determine_valid_values (block : Model)
    (discr_var_to_constrs_map : List (Var × List Constr)) : Unit × Model :=
  let _var_to_constraints_map := add_constraints_to_map [] block
  ((), block)

/-- Line 50: `equality_tolerance = 1E-6`. -/
def equality_tolerance : ℚ := mkRat 1 1000000

/-- Embeds `InducedLinearity._apply_to(model)` (lines 48-77).  The body
computes `detect_effectively_discrete_vars(model, equality_tolerance)`
(lines 51-52) and then executes `determine_valid_values(eff_discr_vars)`
(line 57); in the source `determine_valid_values` is a two-parameter
function with no defaults, so this call raises `TypeError` before the
callee body runs, and nothing after line 57 executes (were that call
repaired, line 66 would next raise `NameError`, iterating the unbound name
`effectively_discrete_vars`).  The model is returned unchanged alongside
the raised error. -/
def InducedLinearity_apply_to (model : Model) : Except PyError Unit × Model :=
  let _eff_discr_vars :=
    detect_effectively_discrete_vars model equality_tolerance
  (Except.error PyError.typeError, model)

/-- C3 evidence for the code bug: every full pass invocation raises —
line 57 calls the two-parameter `determine_valid_values` with a single
argument, a `TypeError` on any model whatsoever — so malformed constraints
are never even reached by a per-constraint skip, and the pass never runs to
completion. -/
theorem apply_to_always_raises (model : Model) :
    (InducedLinearity_apply_to model).1 = Except.error PyError.typeError :=
  rfl

/-- C10: a full pass invocation makes no modification to the model —
no auxiliary variable or constraint is added and nothing is removed,
deactivated or altered: the detector only reads, `determine_valid_values`
discards its local map and computes nothing (its per-variable loop body is
`pass`), `_reformulate_case_2` is a no-op stub, and the invocation aborts
with a `TypeError` before any later stage could run. -/
theorem apply_to_no_modification (model : Model)
    (em : List (Var × List Constr)) (v1 v2 : Var)
    (discrete_constr : List Constr) (bilinear_constr : Constr) :
    (InducedLinearity_apply_to model).2 = model ∧
    (determine_valid_values model em).2 = model ∧
    reformulate_case_2 v1 v2 discrete_constr bilinear_constr model = model :=
  ⟨rfl, rfl, rfl⟩

/-! ## PairProcessor (the loop of `_apply_to`, lines 65-74) -/

/-- State of the pair-processing loop: the `processed_pairs` set and the
sequence of pairs dispatched to `_process_bilinear_constraints`, in
dispatch order. -/
structure PairState where
  processed : List (Var × Var)
  dispatched : List (Var × Var)
deriving DecidableEq

/-- One iteration of the inner loop (lines 68-74) for the outer variable
`v1` and one entry `(v2, bilinear_constrs)` of `bilinear_map[v1]`: `continue`
when `(v1, v2)` is in `processed_pairs`; otherwise dispatch the pair and add
`(v2, v1)` and `(v1, v2)` to `processed_pairs`.  Membership of a pair in the
`ComponentSet` is modelled from the specification (section 4.4, pairs
checked and marked in both orders): a pair is found when the same ordered
pair of components was marked earlier. -/
def pairStep (v1 : Var) (s : PairState) (e : Var × Nat) : PairState :=
  let v2 := e.1
  if (v1, v2) ∈ s.processed then s
  else { processed := s.processed ++ [(v2, v1), (v1, v2)],
         dispatched := s.dispatched ++ [(v1, v2)] }

/-- Embeds the pair-processing loop of `_apply_to` (lines 65-74), iterating
the effectively-discrete records (the loop's intended iterable — the source
spells the name `effectively_discrete_vars`, which is unbound; see the pass
theorems) against the bilinear map. -/
def processPairs (effectively_discrete_vars : List (Var × List Constr))
    (bilinear_map : BMap) : PairState :=
  effectively_discrete_vars.foldl
    (fun s e =>
      ((alookup bilinear_map.map e.1).getD []).foldl (pairStep e.1) s)
    { processed := [], dispatched := [] }

/-- Whether a dispatched ordered pair coincides with the unordered pair
`{a, b}`. -/
def isPair (a b : Var) (p : Var × Var) : Bool :=
  decide ((p.1 = a ∧ p.2 = b) ∨ (p.1 = b ∧ p.2 = a))

/-- Loop invariant for at-most-once dispatch of the unordered pair
`{a, b}`: it was dispatched at most once so far, and if it was dispatched
then both its orderings are in `processed_pairs`. -/
def pairOnce (a b : Var) (s : PairState) : Prop :=
  s.dispatched.countP (isPair a b) ≤ 1 ∧
  (1 ≤ s.dispatched.countP (isPair a b) →
    (a, b) ∈ s.processed ∧ (b, a) ∈ s.processed)

theorem pairStep_once (v1 : Var) (s : PairState) (e : Var × Nat) (a b : Var)
    (h : pairOnce a b s) : pairOnce a b (pairStep v1 s e) := by
  unfold pairStep
  by_cases hp : (v1, e.1) ∈ s.processed
  · rw [if_pos hp]; exact h
  · rw [if_neg hp]
    by_cases hm : isPair a b (v1, e.1) = true
    · have hshape : (v1 = a ∧ e.1 = b) ∨ (v1 = b ∧ e.1 = a) := by
        simpa [isPair] using hm
      have hold : s.dispatched.countP (isPair a b) = 0 := by
        by_contra hnz
        obtain ⟨hab, hba⟩ := h.2 (Nat.one_le_iff_ne_zero.mpr hnz)
        rcases hshape with ⟨h1, h2⟩ | ⟨h1, h2⟩
        · exact hp (by rw [h1, h2]; exact hab)
        · exact hp (by rw [h1, h2]; exact hba)
      constructor
      · rw [List.countP_append, hold]
        simp [List.countP_cons, hm]
      · intro _
        constructor
        · rcases hshape with ⟨h1, h2⟩ | ⟨h1, h2⟩
          · refine List.mem_append_right _ ?_
            rw [← h1, ← h2]
            simp
          · refine List.mem_append_right _ ?_
            rw [← h1, ← h2]
            simp
        · rcases hshape with ⟨h1, h2⟩ | ⟨h1, h2⟩
          · refine List.mem_append_right _ ?_
            rw [← h1, ← h2]
            simp
          · refine List.mem_append_right _ ?_
            rw [← h1, ← h2]
            simp
    · have hzero : List.countP (isPair a b) [(v1, e.1)] = 0 := by
        simp [List.countP_cons, hm]
      constructor
      · rw [List.countP_append, hzero]
        simpa using h.1
      · intro hone
        rw [List.countP_append, hzero, Nat.add_zero] at hone
        obtain ⟨hab, hba⟩ := h.2 hone
        exact ⟨List.mem_append_left _ hab, List.mem_append_left _ hba⟩

/-- C7: within one pass, every unordered variable pair with an
effectively-discrete member is dispatched to the Reformulator at most once,
even when the pair is discoverable from either member: the loop skips
pairs found in `processed_pairs` and marks both orderings after each
dispatch. -/
theorem pair_dispatched_at_most_once
    (effectively_discrete_vars : List (Var × List Constr))
    (bilinear_map : BMap) (a b : Var) :
    (processPairs effectively_discrete_vars bilinear_map).dispatched.countP
      (isPair a b) ≤ 1 := by
  have h0 : pairOnce a b { processed := [], dispatched := [] } := by
    have hnil : (({ processed := [], dispatched := [] } : PairState)).dispatched
        = [] := rfl
    constructor
    · rw [hnil, List.countP_nil]
      exact Nat.zero_le 1
    · intro hone
      rw [hnil, List.countP_nil] at hone
      exact absurd hone (by decide)
  have inner : ∀ (v1 : Var) (il : List (Var × Nat)) (s : PairState),
      pairOnce a b s → pairOnce a b (il.foldl (pairStep v1) s) := by
    intro v1 il
    induction il with
    | nil => intro s h; exact h
    | cons q qrest ih =>
      intro s h
      rw [List.foldl_cons]
      exact ih _ (pairStep_once v1 s q a b h)
  have main : ∀ (l : List (Var × List Constr)) (s : PairState),
      pairOnce a b s →
      pairOnce a b (l.foldl
        (fun s2 e =>
          ((alookup bilinear_map.map e.1).getD []).foldl (pairStep e.1) s2)
        s) := by
    intro l
    induction l with
    | nil => intro s h; exact h
    | cons e rest ih =>
      intro s h
      rw [List.foldl_cons]
      exact ih _ (inner e.1 _ s h)
  exact (main effectively_discrete_vars _ h0).1

/-! ## ValidValueResolver (spec-modelled) and the scenario models -/

/-- Integer range of given length starting at `a`. -/
def intRange (a : Int) : Nat → List Int
  | 0 => []
  | Nat.succ n => a :: intRange (a + 1) n

/-- Modelled from the spec: the declared finite domain of a discrete
variable, as enumerated by the ValidValueResolver (spec section 4.2,
"binary => {0,1}; bounded integer => its bound range"); the source's
`determine_valid_values` computes no value sets, so the resolver is
reconstructed from the specification's words. -/
def discreteDomain (v : Var) : List Int :=
  if v.continuous then []
  else
    match v.lb, v.ub with
    | some a, some b => intRange a (b - a + 1).toNat
    | _, _ => []

/-- Modelled from the spec: the Cartesian product of the co-variables'
domains ("enumerate the Cartesian product of their declared finite
domains"). -/
def combos : List (List Int) → List (List Int)
  | [] => [[]]
  | d :: ds => d.flatMap (fun x => (combos ds).map (fun rest => x :: rest))

/-- Modelled from the spec: the implied values of `v` under one inducing
equality constraint ("for each combination evaluate the inducing
constraint's linear form to get an implied value"): solve
`const + sum coef_i x_i = rhs` for `v` at every combination of the discrete
co-variables. -/
def impliedValues (c : Constr) (v : Var) : List ℚ :=
  let terms := c.linear_coefs.zip c.linear_vars
  let covars := terms.filter (fun t => decide (t.2 ≠ v))
  let cv := (terms.filter (fun t => decide (t.2 = v))).foldl
      (fun a t => a + t.1) 0
  match c.lower with
  | none => []
  | some rhs =>
    if cv = 0 then []
    else
      (combos (covars.map (fun t => discreteDomain t.2))).map
        (fun comb : List Int =>
          (rhs - c.const -
            ((covars.map (fun t => t.1)).zip comb).foldl
              (fun acc p => acc + p.1 * (p.2 : ℚ)) 0) / cv)

/-- First-occurrence deduplication, with the values already seen carried
along. -/
def dedupFirstAux (seen : List ℚ) : List ℚ → List ℚ
  | [] => []
  | x :: xs =>
    if x ∈ seen then dedupFirstAux seen xs
    else x :: dedupFirstAux (x :: seen) xs

/-- First-occurrence deduplication of a value list. -/
def dedupFirst (l : List ℚ) : List ℚ := dedupFirstAux [] l

/-- Modelled from the spec (section 4.2): the variable's value set is the
intersection of the per-constraint implied sets over all its inducing
constraints, ordered by first appearance. -/
def validValues_spec (v : Var) : List Constr → List ℚ
  | [] => []
  | c :: rest =>
    rest.foldl
      (fun acc c2 => acc.filter (fun q => decide (q ∈ impliedValues c2 v)))
      (dedupFirst (impliedValues c v))

/-- Scenario A binary variable `d1`. -/
def dA1 : Var := ⟨31, false, some 0, some 1⟩

/-- Scenario A binary variable `d2`. -/
def dA2 : Var := ⟨32, false, some 0, some 1⟩

/-- Scenario A binary variable `d3`. -/
def dA3 : Var := ⟨33, false, some 0, some 1⟩

/-- Scenario A continuous variable `v`. -/
def vA : Var := ⟨34, true, none, none⟩

/-- Scenario A inducing constraint `d1 + d2 + d3 - v = 0`. -/
def cA1 : Constr :=
  ⟨41, true, some 0, some 0, some 1, [dA1, dA2, dA3, vA], [1, 1, 1, -1], 0,
   [], false⟩

/-- Scenario A model. -/
def mA : Model := ⟨[dA1, dA2, dA3, vA], [cA1]⟩

/-- C2 evidence for the code bug: on Scenario A the detector records
`cA1` as the sole inducing constraint of `vA`, and the resolver specified
by the spec would yield the value set `{0, 1, 2, 3}`; but the source's
`determine_valid_values` iterates the record with a body consisting of
`pass`: it computes no value set at all, returns `None`, and leaves the
model unchanged. -/
theorem determine_valid_values_computes_nothing :
    alookup (detect_effectively_discrete_vars mA equality_tolerance) vA =
      some [cA1] ∧
    determine_valid_values mA
      (detect_effectively_discrete_vars mA equality_tolerance) = ((), mA) ∧
    validValues_spec vA [cA1] = [0, 1, 2, 3] := by
  have htol : ¬ ((0 : ℚ) > mkRat 1 1000000) := by decide
  refine ⟨?_, rfl, ?_⟩
  · simp [detect_effectively_discrete_vars, detectStep, quals, fabs, alookup,
      aset, mA, cA1, dA1, dA2, dA3, vA, equality_tolerance, htol]
  · have h1 : impliedValues cA1 vA = [0, 1, 1, 2, 1, 2, 2, 3] := by
      norm_num [impliedValues, combos, discreteDomain, intRange, cA1, vA,
        dA1, dA2, dA3]
    have h2 : dedupFirst [(0 : ℚ), 1, 1, 2, 1, 2, 2, 3] = [0, 1, 2, 3] := by
      decide
    simp [validValues_spec, h1, h2]

/-- Scenario E binary variable `d1`. -/
def dE1 : Var := ⟨51, false, some 0, some 1⟩

/-- Scenario E binary variable `d2`. -/
def dE2 : Var := ⟨52, false, some 0, some 1⟩

/-- Scenario E binary variable `d3`. -/
def dE3 : Var := ⟨53, false, some 0, some 1⟩

/-- Scenario E effectively discrete continuous variable `v`. -/
def vE : Var := ⟨54, true, none, none⟩

/-- Scenario E continuous variable `w` with bounds `[2, 5]`. -/
def wE : Var := ⟨55, true, some 2, some 5⟩

/-- Scenario E inducing constraint `d1 + d2 + d3 - v = 0`. -/
def cE1 : Constr :=
  ⟨61, true, some 0, some 0, some 1, [dE1, dE2, dE3, vE], [1, 1, 1, -1], 0,
   [], false⟩

/-- Scenario E bilinear constraint `v * w <= 10`. -/
def cE2 : Constr :=
  ⟨62, true, none, some 10, some 2, [], [], 0, [(vE, wE)], false⟩

/-- Scenario E model. -/
def mE : Model := ⟨[dE1, dE2, dE3, vE, wE], [cE1, cE2]⟩

/-- C1 evidence for the code bug: on Scenario E the general-case
dispatch runs `_reformulate_case_2`, whose body is `pass`: the model comes
back identical — no auxiliary variable `w` standing for the product is
introduced, no indicator bound constraints are added, and the nonlinear
constraint `v * w <= 10` is still present, active, and still carries its
bilinear term; `_process_bilinear_constraints` likewise returns the model
unchanged. -/
theorem reformulate_case_2_is_noop :
    reformulate_case_2 vE wE [cE1] cE2 mE = mE ∧
    process_bilinear_constraints vE wE [cE1] [cE2] mE = Except.ok mE ∧
    cE2 ∈ mE.constraints ∧ cE2.active = true ∧
    cE2.quadratic_vars = [(vE, wE)] ∧
    mE.vars.length = 5 ∧ mE.constraints.length = 2 := by
  refine ⟨rfl, rfl, ?_, rfl, rfl, rfl, rfl⟩
  decide
